import Mathlib

/-!
Shallow embedding of `bugzilla_hg.py`, a tool that attributes a bug-fixing
patch set to the prior contributors whose code the patches modify (an SZZ-style
heuristic over a mercurial history).

Python string primitives (`str.find`, slicing, `int()`, `str.split`,
`str.splitlines`) are embedded as executable functions over `List Char`.
The mercurial CLI wrapper `HgPApi` is embedded as a record of abstract query
functions (it is an external collaborator).  Python exceptions that the script
can raise (`IndexError` from `self.files[-1]`, `ValueError` from `int()`,
`StopIteration` from `next(ldi)`) are embedded as an error type threaded
through `Except`.
-/

/-- Errors the Python script can raise while running its core logic. -/
inductive PyErr where
  | indexError : PyErr
  | valueError : String → PyErr
  | stopIteration : PyErr
deriving DecidableEq, Repr

/-- Numeric value of a list of decimal digits (most significant first). -/
def digitsVal : List Char → Nat → Nat
  | [], acc => acc
  | c :: cs, acc => digitsVal cs (acc * 10 + (c.toNat - '0'.toNat))

/-- Python `int(s)`, restricted to the forms this script can meet: optional
surrounding whitespace, an optional single sign, then decimal digits.
Returns `none` where Python raises `ValueError`. -/
def pyInt (s : String) : Option Int :=
  let cs := s.data.dropWhile Char.isWhitespace
  let cs := (cs.reverse.dropWhile Char.isWhitespace).reverse
  match cs with
  | '-' :: ds => if ds ≠ [] ∧ ds.all Char.isDigit then some (-(digitsVal ds 0 : Int)) else none
  | '+' :: ds => if ds ≠ [] ∧ ds.all Char.isDigit then some ((digitsVal ds 0 : Int)) else none
  | ds => if ds ≠ [] ∧ ds.all Char.isDigit then some ((digitsVal ds 0 : Int)) else none

/-- Python `int(s)` as an `Except`, raising `ValueError` on failure. -/
def pyIntE (s : String) : Except PyErr Int :=
  match pyInt s with
  | none => .error (.valueError s)
  | some n => .ok n

/-- Python `int(s)` defaulted to `0`; only used in statements under a
hypothesis that `pyInt s` succeeds. -/
def pyIntD (s : String) : Int := (pyInt s).getD 0

/-- First index at which `t` occurs as a contiguous sublist of `s`. -/
def occIdx (t : List Char) : List Char → Option Nat
  | [] => if t.isPrefixOf ([] : List Char) then some 0 else none
  | c :: s => if t.isPrefixOf (c :: s) then some 0 else (occIdx t s).map (· + 1)

/-- Normalisation of a (possibly negative) Python start index against a
string of length `len`: negative indices count from the end, clamped at 0;
non-negative indices are clamped at `len`. -/
def pyIdx (len : Nat) (i : Int) : Nat :=
  if i < 0 then ((len : Int) + i).toNat else min i.toNat len

/-- Python `s.find(sub, start)`: smallest index `≥ start` at which `sub`
occurs in `s`, or `-1`. -/
def pyFind (s sub : String) (start : Int) : Int :=
  let cs := s.data
  let st := pyIdx cs.length start
  match occIdx sub.data (cs.drop st) with
  | none => -1
  | some i => ((st + i : Nat) : Int)

/-- Python slice `s[a:b]` (with Python's negative-index and clamping rules). -/
def pySlice (s : String) (a b : Int) : String :=
  let cs := s.data
  String.mk ((cs.take (pyIdx cs.length b)).drop (pyIdx cs.length a))

/-- Worker for Python `s.split()` (split on whitespace runs, no empties). -/
def splitWsAux : List Char → List Char → List String
  | [], [] => []
  | [], acc => [String.mk acc.reverse]
  | c :: rest, acc =>
    if c.isWhitespace then
      match acc with
      | [] => splitWsAux rest []
      | _ => String.mk acc.reverse :: splitWsAux rest []
    else splitWsAux rest (c :: acc)

/-- Python `s.split()`: whitespace-delimited tokens, empties discarded. -/
def pySplitWs (s : String) : List String := splitWsAux s.data []

/-- Worker for Python `s.splitlines()` over the character list. -/
def splitlinesAux : List Char → List Char → List String
  | [], [] => []
  | [], acc => [String.mk acc.reverse]
  | '\r' :: '\n' :: rest, acc => String.mk acc.reverse :: splitlinesAux rest []
  | '\r' :: rest, acc => String.mk acc.reverse :: splitlinesAux rest []
  | '\n' :: rest, acc => String.mk acc.reverse :: splitlinesAux rest []
  | c :: rest, acc => splitlinesAux rest (c :: acc)

/-- Python `s.splitlines()` (for the line terminators diffs contain). -/
def pySplitlines (s : String) : List String := splitlinesAux s.data []

/-- Python `line.split(":")[0]`: the text before the first colon. -/
def blameRevOf (line : String) : String :=
  String.mk (line.data.takeWhile (fun c => c ≠ ':'))

/-- The lines associated with a piece of a diff (`class DiffLines`); `start`
is stored zero-based, as the constructor stores `start - 1`. -/
structure DiffLines where
  start : Int
  count : Int
deriving DecidableEq, Repr

/-- `DiffLines.__init__`: converts to 0-initialized line numbers. -/
def DiffLines.init (start count : Int) : DiffLines := ⟨start - 1, count⟩

/-- The diff associated with a file at a particular revision
(`class FileDiff`). -/
structure FileDiff where
  revision : String
  filename : String
  diffs : List DiffLines
deriving DecidableEq, Repr

/-- The diff associated with a particular revision (`class RevisionDiff`). -/
structure RevisionDiff where
  revision : String
  files : List FileDiff
deriving DecidableEq, Repr

/-- The pseudo-API of hg CLI commands (`class HgPApi`), embedded as an
abstract record of query functions: it is the external collaborator. -/
structure HgPApi where
  revs_from_keyword : String → List String
  diffs_from_rev : String → String
  parent : String → String
  blame : String → String → String
  author : String → String
  count_prior_commits : String → String → String

/-- Appends a parsed `DiffLines` to `self.files[-1].diffs`; Python raises
`IndexError` when `files` is empty. -/
def appendToLast (files : List FileDiff) (d : DiffLines) : Except PyErr (List FileDiff) :=
  match files.getLast? with
  | none => .error .indexError
  | some fd => .ok (files.dropLast ++ [{ fd with diffs := fd.diffs ++ [d] }])

/-- The loop body of `RevisionDiff.__init__`: processes the diff text line by
line.  A line with prefix `diff ` starts a new `FileDiff` (filename is the
last whitespace token with its two leading characters stripped); a line whose
first character is `@` is parsed as `@@ -start,count ... @@` and appended to
the last file's diffs. -/
def parseLines (revision : String) : List String → List FileDiff → Except PyErr (List FileDiff)
  | [], files => .ok files
  | line :: rest, files =>
    match line.data with
    | [] => parseLines revision rest files
    | c :: _ =>
      let step : Except PyErr (List FileDiff) := do
        let files1 ←
          if pyFind line "diff " 0 = 0 then
            match (pySplitWs line).getLast? with
            | none => Except.error PyErr.indexError
            | some w => Except.ok (files ++ [⟨revision, pySlice w 2 (w.data.length : Int), []⟩])
          else Except.ok files
        if c = '@' then
          let comma := pyFind line "," 3
          let old_line_start ← pyIntE (pySlice line 4 comma)
          let diff_size ← pyIntE (pySlice line (comma + 1) (pyFind line " " 3))
          appendToLast files1 (DiffLines.init old_line_start diff_size)
        else Except.ok files1
      match step with
      | .error e => .error e
      | .ok files2 => parseLines revision rest files2

/-- `RevisionDiff.__init__`: parse one revision's diff lines into files. -/
def RevisionDiff.init (revision : String) (lines : List String) : Except PyErr RevisionDiff :=
  (parseLines revision lines []).map (fun fs => ⟨revision, fs⟩)

/-- `FileDiff.is_rust_file`: `self.filename.find(".rs",-3) != -1`. -/
def FileDiff.is_rust_file (fd : FileDiff) : Bool :=
  pyFind fd.filename ".rs" (-3) != -1

/-- One blame line's contribution: `blame_rev = line.split(":")[0]`, added to
the accumulator unless it is in the exclusion list. -/
def blameAdd (exclude : List String) (line : String) (acc : Finset String) : Finset String :=
  let blame_rev := blameRevOf line
  if blame_rev ∈ exclude then acc else insert blame_rev acc

/-- The scan loop of `FileDiff.get_blamed_revs`: walk the blame lines with
index `i`, advancing through the diff ranges; `ld` is the current range,
`ldi` the remaining ranges; reaching `next(ldi, None) = None` stops the scan. -/
def blameScan (exclude : List String) : List String → Int → DiffLines → List DiffLines → Finset String → Finset String
  | [], _, _, _, acc => acc
  | line :: rest, i, ld, ldi, acc =>
    if i ≥ ld.start + ld.count then
      match ldi with
      | [] => acc
      | ld2 :: ldi2 =>
        blameScan exclude rest (i + 1) ld2 ldi2
          (if i ≥ ld2.start then blameAdd exclude line acc else acc)
    else
      blameScan exclude rest (i + 1) ld ldi
        (if i ≥ ld.start then blameAdd exclude line acc else acc)

/-- The body of `FileDiff.get_blamed_revs` once the blame listing has been
fetched and split into lines.  `ld = next(ldi)` raises `StopIteration` when
the file has no parsed hunks. -/
def get_blamed_revs_core (blame_lines : List String) (exclude : List String) (diffs : List DiffLines) : Except PyErr (Finset String) :=
  match diffs with
  | [] => .error .stopIteration
  | ld :: ldi => .ok (blameScan exclude blame_lines 0 ld ldi ∅)

/-- `FileDiff.get_blamed_revs`: blame the file at the parent of its revision
and intersect the blame listing with the file's diff ranges. -/
def FileDiff.get_blamed_revs (api : HgPApi) (fd : FileDiff) (exclude : List String) : Except PyErr (Finset String) :=
  let blame_lines := pySplitlines (api.blame fd.filename (api.parent fd.revision))
  get_blamed_revs_core blame_lines exclude fd.diffs

/-- The loop of `RevisionDiff.get_blamed_revs`: union over the files, skipping
non-rust files when `rust_only` is set. -/
def rd_blamed_loop (api : HgPApi) (exclude : List String) (rust_only : Bool) : List FileDiff → Finset String → Except PyErr (Finset String)
  | [], acc => .ok acc
  | fd :: fds, acc =>
    if rust_only ∧ ¬ fd.is_rust_file then rd_blamed_loop api exclude rust_only fds acc
    else
      match fd.get_blamed_revs api exclude with
      | .error e => .error e
      | .ok s => rd_blamed_loop api exclude rust_only fds (acc ∪ s)

/-- `RevisionDiff.get_blamed_revs`. -/
def RevisionDiff.get_blamed_revs (api : HgPApi) (rd : RevisionDiff) (exclude : List String) (rust_only : Bool) : Except PyErr (Finset String) :=
  rd_blamed_loop api exclude rust_only rd.files ∅

/-- The loop of the module-level `get_blamed_revs`: union over revisions. -/
def get_blamed_revs_loop (api : HgPApi) (exclude : List String) (rust_only : Bool) : List RevisionDiff → Finset String → Except PyErr (Finset String)
  | [], acc => .ok acc
  | rd :: rds, acc =>
    match rd.get_blamed_revs api exclude rust_only with
    | .error e => .error e
    | .ok s => get_blamed_revs_loop api exclude rust_only rds (acc ∪ s)

/-- Module-level `get_blamed_revs(rev_diffs, exclude, rust_only)`. -/
def get_blamed_revs (api : HgPApi) (rev_diffs : List RevisionDiff) (exclude : List String) (rust_only : Bool) : Except PyErr (Finset String) :=
  get_blamed_revs_loop api exclude rust_only rev_diffs ∅

/-- Python dict lookup `m[a]` (`none` embeds `a not in m`). -/
def dictGet : List (String × String) → String → Option String
  | [], _ => none
  | p :: rest, a => if p.1 = a then some p.2 else dictGet rest a

/-- Python dict assignment `m[k] = v`: replace the entry in place when the key
is present, append otherwise. -/
def dictSet : List (String × String) → String → String → List (String × String)
  | [], k, v => [(k, v)]
  | p :: rest, k, v => if p.1 = k then (k, v) :: rest else p :: dictSet rest k v

/-- The body of the `get_blamed_names` loop for one popped revision: update
the map when the author is new or the revision is numerically smaller than
the author's current entry. -/
def blamed_names_step (author : String → String) (m : List (String × String)) (rev : String) : Except PyErr (List (String × String)) :=
  let a := author rev
  match dictGet m a with
  | none => .ok (dictSet m a rev)
  | some cur =>
    match pyInt rev with
    | none => .error (.valueError rev)
    | some rn =>
      match pyInt cur with
      | none => .error (.valueError cur)
      | some cn => if rn < cn then .ok (dictSet m a rev) else .ok m

/-- The `while(len(blamed_revs))` loop of `get_blamed_names`: pops revisions
in the given order, returning the final state of the (emptied) revision set
together with the author map. -/
def get_blamed_names_loop (author : String → String) : List String → List (String × String) → Except PyErr (List String × List (String × String))
  | [], m => .ok ([], m)
  | rev :: rest, m =>
    match blamed_names_step author m rev with
    | .error e => .error e
    | .ok m2 => get_blamed_names_loop author rest m2

/-- `get_blamed_names(blamed_revs)`: reduce a set of blamed revisions to one
entry per author, keeping the numerically smallest revision. -/
def get_blamed_names (api : HgPApi) (blamed_revs : List String) : Except PyErr (List (String × String)) :=
  (get_blamed_names_loop api.author blamed_revs []).map (fun p => p.2)

namespace BugzillaHg

/-- `main(keyword, rust_only)`: the orchestrator.  Output is the list of
printed lines (one prior-commit count per attributed author).  The pop order
of the blamed-revision set is embedded as the sorted order of the `Finset`. -/
def main (api : HgPApi) (keyword : String) (rust_only : Bool) : Except PyErr (List String) :=
  let revisions := api.revs_from_keyword keyword
  if revisions.isEmpty then .ok []
  else
    match (revisions.mapM (fun revision => RevisionDiff.init revision (pySplitlines (api.diffs_from_rev revision))) : Except PyErr (List RevisionDiff)) with
    | .error e => .error e
    | .ok rev_diffs =>
      match get_blamed_revs api rev_diffs revisions rust_only with
      | .error e => .error e
      | .ok blamed_revs =>
        match get_blamed_names api (blamed_revs.sort (fun a b => a ≤ b)) with
        | .error e => .error e
        | .ok blamed_names =>
          .ok (blamed_names.map (fun p => api.count_prior_commits p.1 p.2))

end BugzillaHg

/-- A concrete collaborator that finds no revisions and returns empty results
everywhere; used to instantiate hypotheses at concrete inputs. -/
def apiA : HgPApi :=
  ⟨fun _ => [], fun _ => "", fun _ => "", fun _ _ => "", fun _ => "", fun _ _ => ""⟩

/-- C1: for a file whose blame listing is the five lines `l0..l4` (line
indices 0..4) and whose DiffRange list is the single range
`{start := 2, count := 2}`, the blame intersection with an empty exclusion
list returns exactly the set of the revisions blamed for lines 2 and 3. -/
theorem C1_blame_intersection (l0 l1 l2 l3 l4 : String) :
    get_blamed_revs_core [l0, l1, l2, l3, l4] [] [⟨2, 2⟩] =
      .ok {blameRevOf l2, blameRevOf l3} := by
  have h : get_blamed_revs_core [l0, l1, l2, l3, l4] [] [⟨2, 2⟩] =
      .ok (insert (blameRevOf l3) (insert (blameRevOf l2) ∅)) := rfl
  rw [h, Finset.Insert.comm, LawfulSingleton.insert_emptyc_eq]

/-- C2: a diff text with one file-marker line followed by the hunk headers
`@@ -10,5 +.. @@` and `@@ -20,3 +.. @@` parses to exactly one FileDiff whose
DiffRange list is `[{start := 9, count := 5}, {start := 19, count := 3}]`
(old-side starts made zero-based). -/
theorem C2_parse_two_hunks :
    RevisionDiff.init "1"
        (pySplitlines "diff --git a/foo.rs b/foo.rs\n@@ -10,5 +20,7 @@\n@@ -20,3 +30,4 @@") =
      .ok ⟨"1", [⟨"1", "foo.rs", [⟨9, 5⟩, ⟨19, 3⟩]⟩]⟩ := by
  rfl

/-- C6: for a FileDiff with an empty DiffRange list, `get_blamed_revs` does
not return an empty set: the `ld = next(ldi)` call raises `StopIteration`,
whatever the blame listing is. -/
theorem C6_empty_diffs (api : HgPApi) (fd : FileDiff) (exclude : List String)
    (h : fd.diffs = []) :
    fd.get_blamed_revs api exclude = .error .stopIteration := by
  simp [FileDiff.get_blamed_revs, get_blamed_revs_core, h]

/-- Witness for C6 at a concrete FileDiff with no hunks. -/
theorem C6_empty_diffs_witness :
    FileDiff.get_blamed_revs apiA ⟨"1", "a.rs", []⟩ ["x"] = .error .stopIteration :=
  C6_empty_diffs apiA ⟨"1", "a.rs", []⟩ ["x"] rfl

/-- C10 counterexample: on a diff consisting of one well-formed hunk header
with no preceding file-marker line, the parser fails with the generic
`IndexError` from `self.files[-1]` (no ParseError, no offending line named),
not with a ParseError naming the line. -/
theorem C10_cex :
    RevisionDiff.init "1" (pySplitlines "@@ -10,5 +20,3 @@") = .error .indexError := by
  rfl

/-- C10 amended: a hunk-header line appearing before any file-marker line
makes the parser fail (it is not silently dropped), but the failure is the
generic `IndexError` from indexing the empty file list, for any revision and
any following lines. -/
theorem C10_hunk_before_marker (rev : String) (rest : List String) :
    RevisionDiff.init rev ("@@ -10,5 +20,3 @@" :: rest) = .error .indexError := by
  rfl

/-- Whatever `blameAdd` adds beyond the accumulator is not excluded. -/
theorem blameAdd_mem (exclude : List String) (line : String) (acc : Finset String) (r : String)
    (h : r ∈ blameAdd exclude line acc) : r ∈ acc ∨ r ∉ exclude := by
  simp only [blameAdd] at h
  split at h
  · exact Or.inl h
  · rcases Finset.mem_insert.mp h with h1 | h1
    · subst h1
      right
      assumption
    · exact Or.inl h1

/-- Guarded `blameAdd` keeps the same property. -/
theorem blameAdd_if_mem (c : Prop) [Decidable c] (exclude : List String) (line : String)
    (acc : Finset String) (r : String)
    (h : r ∈ (if c then blameAdd exclude line acc else acc)) : r ∈ acc ∨ r ∉ exclude := by
  split at h
  · exact blameAdd_mem exclude line acc r h
  · exact Or.inl h

/-- Every member of the blame scan result is either from the starting
accumulator or not in the exclusion list. -/
theorem blameScan_mem (exclude : List String) (lines : List String) :
    ∀ (i : Int) (ld : DiffLines) (ldi : List DiffLines) (acc : Finset String) (r : String),
      r ∈ blameScan exclude lines i ld ldi acc → r ∈ acc ∨ r ∉ exclude := by
  induction lines with
  | nil =>
    intro i ld ldi acc r h
    exact Or.inl h
  | cons line rest ih =>
    intro i ld ldi acc r h
    rw [blameScan.eq_def] at h
    simp only [] at h
    split at h
    · match ldi, h with
      | [], h => exact Or.inl h
      | ld2 :: ldi2, h =>
        rcases ih _ _ _ _ _ h with h' | h'
        · exact blameAdd_if_mem _ exclude line acc r h'
        · exact Or.inr h'
    · rcases ih _ _ _ _ _ h with h' | h'
      · exact blameAdd_if_mem _ exclude line acc r h'
      · exact Or.inr h'

/-- No member of a successful per-file blame intersection is excluded. -/
theorem get_blamed_revs_core_mem (blame_lines exclude : List String) (diffs : List DiffLines)
    (s : Finset String) (h : get_blamed_revs_core blame_lines exclude diffs = .ok s)
    (r : String) (hr : r ∈ s) : r ∉ exclude := by
  cases diffs with
  | nil => simp [get_blamed_revs_core] at h
  | cons ld ldi =>
    simp only [get_blamed_revs_core, Except.ok.injEq] at h
    subst h
    rcases blameScan_mem exclude blame_lines 0 ld ldi ∅ r hr with h' | h'
    · exact absurd h' (Finset.not_mem_empty r)
    · exact h'

/-- No member of a successful `FileDiff.get_blamed_revs` is excluded. -/
theorem FileDiff_get_blamed_revs_mem (api : HgPApi) (fd : FileDiff) (exclude : List String)
    (s : Finset String) (h : fd.get_blamed_revs api exclude = .ok s)
    (r : String) (hr : r ∈ s) : r ∉ exclude :=
  get_blamed_revs_core_mem _ exclude fd.diffs s h r hr

/-- Loop invariant for `RevisionDiff.get_blamed_revs`. -/
theorem rd_blamed_loop_mem (api : HgPApi) (exclude : List String) (rust_only : Bool)
    (files : List FileDiff) :
    ∀ (acc : Finset String) (s : Finset String),
      rd_blamed_loop api exclude rust_only files acc = .ok s →
      ∀ r ∈ s, r ∈ acc ∨ r ∉ exclude := by
  induction files with
  | nil =>
    intro acc s h r hr
    rw [rd_blamed_loop] at h
    cases h
    exact Or.inl hr
  | cons fd fds ih =>
    intro acc s h r hr
    rw [rd_blamed_loop] at h
    split at h
    · exact ih acc s h r hr
    · match heq : fd.get_blamed_revs api exclude, h with
      | .ok s1, h =>
        replace h : rd_blamed_loop api exclude rust_only fds (acc ∪ s1) = Except.ok s := h
        rcases ih _ _ h r hr with h' | h'
        · rcases Finset.mem_union.mp h' with h2 | h2
          · exact Or.inl h2
          · exact Or.inr (FileDiff_get_blamed_revs_mem api fd exclude s1 heq r h2)
        · exact Or.inr h'
      | .error e, h =>
        replace h : (Except.error e : Except PyErr (Finset String)) = Except.ok s := h
        cases h

/-- Loop invariant for the module-level `get_blamed_revs`. -/
theorem get_blamed_revs_loop_mem (api : HgPApi) (exclude : List String) (rust_only : Bool)
    (rds : List RevisionDiff) :
    ∀ (acc : Finset String) (s : Finset String),
      get_blamed_revs_loop api exclude rust_only rds acc = .ok s →
      ∀ r ∈ s, r ∈ acc ∨ r ∉ exclude := by
  induction rds with
  | nil =>
    intro acc s h r hr
    rw [get_blamed_revs_loop] at h
    cases h
    exact Or.inl hr
  | cons rd rds ih =>
    intro acc s h r hr
    rw [get_blamed_revs_loop] at h
    match heq : rd.get_blamed_revs api exclude rust_only, h with
    | .ok s1, h =>
      replace h : get_blamed_revs_loop api exclude rust_only rds (acc ∪ s1) = Except.ok s := h
      rcases ih _ _ h r hr with h' | h'
      · rcases Finset.mem_union.mp h' with h2 | h2
        · exact Or.inl h2
        · right
          rcases rd_blamed_loop_mem api exclude rust_only rd.files ∅ s1 heq r h2 with h3 | h3
          · exact absurd h3 (Finset.not_mem_empty r)
          · exact h3
      · exact Or.inr h'
    | .error e, h =>
      replace h : (Except.error e : Except PyErr (Finset String)) = Except.ok s := h
      cases h

/-- C3: for every collaborator, every list of revision diffs, every exclusion
list and both filter modes, a successful run of the blamed-revision
intersection never returns a member of the exclusion list — even when blame
attributes a line to an excluded (fixing) revision. -/
theorem C3_exclusion (api : HgPApi) (rev_diffs : List RevisionDiff) (exclude : List String)
    (rust_only : Bool) (s : Finset String)
    (h : get_blamed_revs api rev_diffs exclude rust_only = .ok s)
    (r : String) (hr : r ∈ s) : r ∉ exclude := by
  rcases get_blamed_revs_loop_mem api exclude rust_only rev_diffs ∅ s h r hr with h' | h'
  · exact absurd h' (Finset.not_mem_empty r)
  · exact h'

/-- A collaborator whose blame listing attributes line 0 to revision 10 and
line 1 to revision 11. -/
def apiB : HgPApi := { apiA with blame := fun _ _ => "10:x\n11:y" }

/-- Witness for C3: a run over one file whose two-line hunk is blamed on
revisions 10 and 11 with exclusion list ["11"] yields {"10"}, and 10 is not
excluded. -/
theorem C3_exclusion_witness : "10" ∉ ["11"] :=
  C3_exclusion apiB [⟨"5", [⟨"5", "f.rs", [⟨0, 2⟩]⟩]⟩] ["11"] false {"10"} (by rfl) "10" (by decide)

/-- Unfolding equation for `dictGet` on a cons cell. -/
theorem dictGet_cons (p : String × String) (rest : List (String × String)) (a : String) :
    dictGet (p :: rest) a = if p.1 = a then some p.2 else dictGet rest a := rfl

/-- Unfolding equation for `dictSet` on a cons cell. -/
theorem dictSet_cons (p : String × String) (rest : List (String × String)) (k v : String) :
    dictSet (p :: rest) k v = if p.1 = k then (k, v) :: rest else p :: dictSet rest k v := rfl

/-- Lookup after a dict assignment: the assigned key reads back the new
value, every other key is untouched. -/
theorem dictGet_dictSet (m : List (String × String)) (k v a : String) :
    dictGet (dictSet m k v) a = if k = a then some v else dictGet m a := by
  induction m with
  | nil => simp [dictGet, dictSet]
  | cons p rest ih =>
    rw [dictSet_cons]
    by_cases hpk : p.1 = k
    · rw [if_pos hpk, dictGet_cons, dictGet_cons]
      by_cases hka : k = a
      · simp [hka]
      · have hpa : ¬ p.1 = a := by rw [hpk]; exact hka
        simp [hka, hpa]
    · rw [if_neg hpk, dictGet_cons, dictGet_cons, ih]
      by_cases hpa : p.1 = a
      · have hka : ¬ k = a := fun hc => hpk (hpa.trans hc.symm)
        simp [hka, hpa]
      · simp [hpa]

/-- A successful dict lookup names an entry of the dict. -/
theorem dictGet_mem (m : List (String × String)) (a v : String)
    (h : dictGet m a = some v) : (a, v) ∈ m := by
  induction m with
  | nil => cases h
  | cons p rest ih =>
    rw [dictGet_cons] at h
    split at h
    · rename_i hp
      injection h with h2
      have hpav : p = (a, v) := by
        obtain ⟨x, y⟩ := p
        simp only [Prod.mk.injEq]
        exact ⟨hp, h2⟩
      rw [← hpav]
      exact List.mem_cons_self p rest
    · exact List.mem_cons_of_mem p (ih h)

/-- A failed dict lookup means the key is absent. -/
theorem dictGet_eq_none_iff (m : List (String × String)) (a : String) :
    dictGet m a = none ↔ a ∉ m.map Prod.fst := by
  induction m with
  | nil => simp [dictGet]
  | cons p rest ih =>
    simp only [dictGet, List.map_cons, List.mem_cons]
    split
    · rename_i hp
      simp [hp]
    · rename_i hp
      rw [ih]
      constructor
      · intro hn hc
        rcases hc with hc | hc
        · exact hp hc.symm
        · exact hn hc
      · intro hn hc
        exact hn (Or.inr hc)

/-- Every entry of `dictSet m k v` is the new entry or an old one. -/
theorem dictSet_mem (m : List (String × String)) (k v : String) (p : String × String)
    (h : p ∈ dictSet m k v) : p = (k, v) ∨ p ∈ m := by
  induction m with
  | nil =>
    simp only [dictSet, List.mem_singleton] at h
    exact Or.inl h
  | cons q rest ih =>
    simp only [dictSet] at h
    split at h
    · rcases List.mem_cons.mp h with h1 | h1
      · exact Or.inl h1
      · exact Or.inr (List.mem_cons_of_mem q h1)
    · rcases List.mem_cons.mp h with h1 | h1
      · exact Or.inr (h1 ▸ List.mem_cons_self q rest)
      · rcases ih h1 with h2 | h2
        · exact Or.inl h2
        · exact Or.inr (List.mem_cons_of_mem q h2)

/-- Keys after a dict assignment: unchanged when the key was present,
the key appended when it was absent. -/
theorem dictSet_keys (m : List (String × String)) (k v : String) :
    (dictSet m k v).map Prod.fst =
      if dictGet m k = none then m.map Prod.fst ++ [k] else m.map Prod.fst := by
  induction m with
  | nil => simp [dictGet, dictSet]
  | cons p rest ih =>
    simp only [dictSet, dictGet]
    split
    · rename_i hp
      rw [if_neg (by simp)]
      simp [hp]
    · rename_i hp
      simp only [List.map_cons, ih]
      split
      · rfl
      · rfl

/-- Dict assignment preserves key uniqueness. -/
theorem dictSet_nodup (m : List (String × String)) (k v : String)
    (h : (m.map Prod.fst).Nodup) : ((dictSet m k v).map Prod.fst).Nodup := by
  rw [dictSet_keys]
  split
  · rename_i hnone
    have hk : k ∉ m.map Prod.fst := (dictGet_eq_none_iff m k).mp hnone
    refine List.Nodup.append h (List.nodup_singleton k) ?_
    intro x hx hxk
    rw [List.mem_singleton] at hxk
    exact hk (hxk ▸ hx)
  · exact h

/-- One step of the pure min-by-revision reduction that `get_blamed_names`
implements for a fixed author key `a`. -/
def stepBest (author : String → String) (a : String) : Option String → String → Option String
  | none, rev => if author rev = a then some rev else none
  | some c, rev =>
    if author rev = a then (if pyIntD rev < pyIntD c then some rev else some c) else some c

/-- The pure min-by-revision reduction over a revision list for author `a`. -/
def foldBest (author : String → String) (a : String) (l : List String) (cur : Option String) : Option String :=
  l.foldl (stepBest author a) cur

/-- A `stepBest` result is the new revision (when it carries author `a`) or
the previous value. -/
theorem stepBest_cases (author : String → String) (a : String) (cur : Option String) (x c : String)
    (h : stepBest author a cur x = some c) : (c = x ∧ author x = a) ∨ cur = some c := by
  cases cur with
  | none =>
    rw [stepBest] at h
    split at h
    · rename_i hx
      injection h with h2
      exact Or.inl ⟨h2.symm, hx⟩
    · cases h
  | some c0 =>
    rw [stepBest] at h
    split at h
    · rename_i hx
      split at h
      · injection h with h2
        exact Or.inl ⟨h2.symm, hx⟩
      · exact Or.inr h
    · exact Or.inr h

/-- `stepBest` never increases the tracked value. -/
theorem stepBest_le_cur (author : String → String) (a : String) (cur : Option String) (x c0 : String)
    (h : cur = some c0) :
    ∃ c1, stepBest author a cur x = some c1 ∧ pyIntD c1 ≤ pyIntD c0 := by
  subst h
  rw [stepBest]
  split
  · split
    · rename_i hlt
      exact ⟨x, rfl, le_of_lt hlt⟩
    · exact ⟨c0, rfl, le_refl _⟩
  · exact ⟨c0, rfl, le_refl _⟩

/-- After seeing `x` with author `a`, the tracked value is at most `x`'s. -/
theorem stepBest_le_x (author : String → String) (a : String) (cur : Option String) (x : String)
    (hx : author x = a) :
    ∃ c1, stepBest author a cur x = some c1 ∧ pyIntD c1 ≤ pyIntD x := by
  cases cur with
  | none =>
    rw [stepBest, if_pos hx]
    exact ⟨x, rfl, le_refl _⟩
  | some c0 =>
    rw [stepBest, if_pos hx]
    by_cases hlt : pyIntD x < pyIntD c0
    · rw [if_pos hlt]
      exact ⟨x, rfl, le_refl _⟩
    · rw [if_neg hlt]
      exact ⟨c0, rfl, le_of_not_lt hlt⟩

/-- Unfolding equation for `foldBest` on a cons cell. -/
theorem foldBest_cons (author : String → String) (a x : String) (l : List String) (cur : Option String) :
    foldBest author a (x :: l) cur = foldBest author a l (stepBest author a cur x) := rfl

/-- Unfolding equation for `foldBest` on nil. -/
theorem foldBest_nil (author : String → String) (a : String) (cur : Option String) :
    foldBest author a [] cur = cur := rfl

/-- `stepBest` yields `none` exactly when nothing was tracked and the new
revision has a different author. -/
theorem stepBest_eq_none (author : String → String) (a : String) (cur : Option String) (x : String) :
    stepBest author a cur x = none ↔ cur = none ∧ author x ≠ a := by
  cases cur with
  | none =>
    rw [stepBest]
    split
    · rename_i hx
      simp [hx]
    · rename_i hx
      simp [hx]
  | some c0 =>
    rw [stepBest]
    split
    · rename_i hx
      split
      · simp
      · simp
    · simp

/-- The reduction tracks `none` exactly when no listed revision has author
`a` and nothing was tracked initially. -/
theorem foldBest_eq_none (author : String → String) (a : String) (l : List String) :
    ∀ cur, foldBest author a l cur = none ↔ cur = none ∧ ∀ r ∈ l, author r ≠ a := by
  induction l with
  | nil =>
    intro cur
    rw [foldBest_nil]
    simp
  | cons x l ih =>
    intro cur
    rw [foldBest_cons, ih, stepBest_eq_none]
    constructor
    · rintro ⟨⟨hcur, hx⟩, hall⟩
      refine ⟨hcur, ?_⟩
      intro r hr
      rcases List.mem_cons.mp hr with h | h
      · subst h
        exact hx
      · exact hall r h
    · rintro ⟨hcur, hall⟩
      exact ⟨⟨hcur, hall x (List.mem_cons_self x l)⟩,
        fun r hr => hall r (List.mem_cons_of_mem x hr)⟩

/-- What the reduction tracks is a listed revision of author `a` (or the
initial value), and its value is minimal among the applicable candidates. -/
theorem foldBest_min (author : String → String) (a : String) (l : List String) :
    ∀ cur r, foldBest author a l cur = some r →
      (cur = some r ∨ (r ∈ l ∧ author r = a)) ∧
      (∀ c, cur = some c → pyIntD r ≤ pyIntD c) ∧
      (∀ x, x ∈ l → author x = a → pyIntD r ≤ pyIntD x) := by
  induction l with
  | nil =>
    intro cur r h
    rw [foldBest_nil] at h
    refine ⟨Or.inl h, ?_, ?_⟩
    · intro c hc
      rw [h] at hc
      injection hc with hc
      rw [hc]
    · intro x hx
      cases hx
  | cons x l ih =>
    intro cur r h
    rw [foldBest_cons] at h
    obtain ⟨h1, h2, h3⟩ := ih (stepBest author a cur x) r h
    refine ⟨?_, ?_, ?_⟩
    · rcases h1 with h1 | h1
      · rcases stepBest_cases author a cur x r h1 with ⟨hrx, hx⟩ | hcur
        · subst hrx
          exact Or.inr ⟨List.mem_cons_self _ _, hx⟩
        · exact Or.inl hcur
      · exact Or.inr ⟨List.mem_cons_of_mem x h1.1, h1.2⟩
    · intro c0 hc0
      obtain ⟨c1, hs, hle⟩ := stepBest_le_cur author a cur x c0 hc0
      exact le_trans (h2 c1 hs) hle
    · intro y hy hya
      rcases List.mem_cons.mp hy with hyx | hyl
      · subst hyx
        obtain ⟨c1, hs, hle⟩ := stepBest_le_x author a cur y hya
        exact le_trans (h2 c1 hs) hle
      · exact h3 y hyl hya

/-- A fresh dict assignment for `rev`'s author agrees with `stepBest`. -/
theorem dictSet_stepBest_new (author : String → String) (m : List (String × String))
    (rev a' : String) (hcur : dictGet m (author rev) = none) :
    dictGet (dictSet m (author rev) rev) a' = stepBest author a' (dictGet m a') rev := by
  rw [dictGet_dictSet]
  by_cases ha : author rev = a'
  · subst ha
    rw [if_pos rfl, hcur, stepBest, if_pos rfl]
  · rw [if_neg ha]
    cases hg : dictGet m a' with
    | none => rw [stepBest, if_neg ha]
    | some c => rw [stepBest, if_neg ha]

/-- Replacing `rev`'s author's entry by a smaller revision agrees with
`stepBest`. -/
theorem dictSet_stepBest_lt (author : String → String) (m : List (String × String))
    (rev a' cur : String) (hcur : dictGet m (author rev) = some cur)
    (hlt : pyIntD rev < pyIntD cur) :
    dictGet (dictSet m (author rev) rev) a' = stepBest author a' (dictGet m a') rev := by
  rw [dictGet_dictSet]
  by_cases ha : author rev = a'
  · subst ha
    rw [if_pos rfl, hcur, stepBest, if_pos rfl, if_pos hlt]
  · rw [if_neg ha]
    cases hg : dictGet m a' with
    | none => rw [stepBest, if_neg ha]
    | some c => rw [stepBest, if_neg ha]

/-- Keeping the entry when the new revision is not smaller agrees with
`stepBest`. -/
theorem dictGet_stepBest_ge (author : String → String) (m : List (String × String))
    (rev a' cur : String) (hcur : dictGet m (author rev) = some cur)
    (hge : ¬ pyIntD rev < pyIntD cur) :
    dictGet m a' = stepBest author a' (dictGet m a') rev := by
  by_cases ha : author rev = a'
  · subst ha
    rw [hcur, stepBest, if_pos rfl, if_neg hge]
  · cases hg : dictGet m a' with
    | none => rw [stepBest, if_neg ha]
    | some c => rw [stepBest, if_neg ha]

/-- The `get_blamed_names` loop succeeds on numeric revisions, empties its
input set, and computes, per author key, exactly the `foldBest` reduction. -/
theorem get_blamed_names_loop_spec (author : String → String) (l : List String) :
    ∀ m : List (String × String),
      (∀ r ∈ l, (pyInt r).isSome) →
      (∀ p ∈ m, (pyInt p.2).isSome) →
      ∃ m', get_blamed_names_loop author l m = .ok ([], m') ∧
        (∀ a, dictGet m' a = foldBest author a l (dictGet m a)) ∧
        ((m.map Prod.fst).Nodup → (m'.map Prod.fst).Nodup) ∧
        (∀ p ∈ m', (pyInt p.2).isSome) := by
  induction l with
  | nil =>
    intro m hl hm
    exact ⟨m, rfl, fun a => rfl, id, hm⟩
  | cons rev rest ih =>
    intro m hl hm
    have hrev : (pyInt rev).isSome := hl rev (List.mem_cons_self _ _)
    have hrest : ∀ r ∈ rest, (pyInt r).isSome := fun r hr => hl r (List.mem_cons_of_mem rev hr)
    have hm2 : ∀ p ∈ dictSet m (author rev) rev, (pyInt p.2).isSome := by
      intro p hp
      rcases dictSet_mem _ _ _ p hp with h | h
      · rw [h]
        exact hrev
      · exact hm p h
    cases hcur : dictGet m (author rev) with
    | none =>
      have hstep : blamed_names_step author m rev = .ok (dictSet m (author rev) rev) := by
        simp only [blamed_names_step]
        rw [hcur]
      obtain ⟨m', hloop, hfold, hnodup, hsome⟩ := ih (dictSet m (author rev) rev) hrest hm2
      refine ⟨m', ?_, ?_, ?_, hsome⟩
      · rw [get_blamed_names_loop, hstep]
        exact hloop
      · intro a
        rw [hfold a, foldBest_cons, dictSet_stepBest_new author m rev a hcur]
      · intro hnd
        exact hnodup (dictSet_nodup m _ _ hnd)
    | some cur =>
      have hcurS : (pyInt cur).isSome := hm (author rev, cur) (dictGet_mem m _ cur hcur)
      obtain ⟨rn, hrn⟩ := Option.isSome_iff_exists.mp hrev
      obtain ⟨cn, hcn⟩ := Option.isSome_iff_exists.mp hcurS
      have hrnD : pyIntD rev = rn := by rw [pyIntD, hrn]; rfl
      have hcnD : pyIntD cur = cn := by rw [pyIntD, hcn]; rfl
      by_cases hlt : rn < cn
      · have hstep : blamed_names_step author m rev = .ok (dictSet m (author rev) rev) := by
          simp only [blamed_names_step, hcur, hrn, hcn]
          simp [hlt]
        obtain ⟨m', hloop, hfold, hnodup, hsome⟩ := ih (dictSet m (author rev) rev) hrest hm2
        refine ⟨m', ?_, ?_, ?_, hsome⟩
        · rw [get_blamed_names_loop, hstep]
          exact hloop
        · intro a
          rw [hfold a, foldBest_cons,
            dictSet_stepBest_lt author m rev a cur hcur (by rw [hrnD, hcnD]; exact hlt)]
        · intro hnd
          exact hnodup (dictSet_nodup m _ _ hnd)
      · have hstep : blamed_names_step author m rev = .ok m := by
          simp only [blamed_names_step, hcur, hrn, hcn]
          simp [hlt]
        obtain ⟨m', hloop, hfold, hnodup, hsome⟩ := ih m hrest hm
        refine ⟨m', ?_, ?_, hnodup, hsome⟩
        · rw [get_blamed_names_loop, hstep]
          exact hloop
        · intro a
          rw [foldBest_cons,
            ← dictGet_stepBest_ge author m rev a cur hcur (by rw [hrnD, hcnD]; exact hlt)]
          exact hfold a

/-- C4: on numeric revisions, `get_blamed_names` produces a map with exactly
one entry per distinct author appearing in the input blamed-revision list
(unique keys; an entry exists iff the author appears), and the entry kept for
an author is a revision of that author from the input whose numeric value is
minimal — so an author blamed via several revisions keeps the numerically
smallest one. -/
theorem C4_author_reduction (author : String → String) (revs : List String)
    (hnum : ∀ r ∈ revs, (pyInt r).isSome) :
    ∃ m, get_blamed_names_loop author revs [] = .ok ([], m) ∧
      (m.map Prod.fst).Nodup ∧
      (∀ a, dictGet m a = none ↔ ∀ r ∈ revs, author r ≠ a) ∧
      (∀ a r, dictGet m a = some r →
        r ∈ revs ∧ author r = a ∧ ∀ x ∈ revs, author x = a → pyIntD r ≤ pyIntD x) := by
  obtain ⟨m, hloop, hfold, hnodup, _⟩ :=
    get_blamed_names_loop_spec author revs [] hnum (fun p hp => absurd hp (List.not_mem_nil p))
  refine ⟨m, hloop, hnodup List.nodup_nil, ?_, ?_⟩
  · intro a
    rw [hfold a]
    have hnil : dictGet ([] : List (String × String)) a = none := rfl
    rw [hnil, foldBest_eq_none]
    simp
  · intro a r hr
    rw [hfold a] at hr
    have hmin := foldBest_min author a revs (dictGet [] a) r hr
    rcases hmin.1 with h | h
    · exact Option.noConfusion h
    · exact ⟨h.1, h.2, fun x hx hxa => hmin.2.2 x hx hxa⟩

/-- Witness for C4: with a constant author map and input {"50", "30"}, the
reduction succeeds, keeps entry "30" for that author, and satisfies the
general characterisation. -/
theorem C4_author_reduction_witness :
    get_blamed_names_loop (fun _ => "alice") ["50", "30"] [] = .ok ([], [("alice", "30")]) ∧
    ∃ m, get_blamed_names_loop (fun _ => "alice") ["50", "30"] [] = .ok ([], m) ∧
      (m.map Prod.fst).Nodup ∧
      (∀ a, dictGet m a = none ↔ ∀ r ∈ ["50", "30"], (fun _ => "alice") r ≠ a) ∧
      (∀ a r, dictGet m a = some r →
        r ∈ ["50", "30"] ∧ (fun _ => "alice") r = a ∧
          ∀ x ∈ ["50", "30"], (fun _ => "alice") x = a → pyIntD r ≤ pyIntD x) :=
  ⟨rfl, C4_author_reduction (fun _ => "alice") ["50", "30"] (by decide)⟩

/-- C5 counterexample: the set {"30", "030"} (two distinct numeric revision
strings of equal integer value) reduced in its two draw orders yields two
different author maps, refuting order-independence as stated. -/
theorem C5_perm_cex :
    List.Perm ["30", "030"] ["030", "30"] ∧
    get_blamed_names_loop (fun _ => "alice") ["30", "030"] [] = .ok ([], [("alice", "30")]) ∧
    get_blamed_names_loop (fun _ => "alice") ["030", "30"] [] = .ok ([], [("alice", "030")]) ∧
    dictGet [("alice", "30")] "alice" ≠ dictGet [("alice", "030")] "alice" := by
  refine ⟨by decide, rfl, rfl, by decide⟩

/-- C5 amended: when distinct revisions in the input have distinct integer
values (as hg local revision numbers do), any two draw orders of the
blamed-revision set yield maps with identical author-to-revision contents. -/
theorem C5_perm_of_distinct_values (author : String → String) (l1 l2 : List String)
    (hperm : l1.Perm l2)
    (hnum : ∀ r ∈ l1, (pyInt r).isSome)
    (hinj : ∀ r ∈ l1, ∀ x ∈ l1, pyIntD r = pyIntD x → r = x) :
    ∃ m1 m2, get_blamed_names_loop author l1 [] = .ok ([], m1) ∧
      get_blamed_names_loop author l2 [] = .ok ([], m2) ∧
      ∀ a, dictGet m1 a = dictGet m2 a := by
  have hnum2 : ∀ r ∈ l2, (pyInt r).isSome := fun r hr => hnum r (hperm.mem_iff.mpr hr)
  obtain ⟨m1, hl1, hf1, _, _⟩ :=
    get_blamed_names_loop_spec author l1 [] hnum (fun p hp => absurd hp (List.not_mem_nil p))
  obtain ⟨m2, hl2, hf2, _, _⟩ :=
    get_blamed_names_loop_spec author l2 [] hnum2 (fun p hp => absurd hp (List.not_mem_nil p))
  refine ⟨m1, m2, hl1, hl2, ?_⟩
  intro a
  rw [hf1 a, hf2 a]
  cases h1 : foldBest author a l1 (dictGet [] a) with
  | none =>
    cases h2 : foldBest author a l2 (dictGet [] a) with
    | none => rfl
    | some r2 =>
      exfalso
      have hn1 := (foldBest_eq_none author a l1 _).mp h1
      have hmin2 := foldBest_min author a l2 _ r2 h2
      rcases hmin2.1 with h | h
      · exact Option.noConfusion h
      · exact hn1.2 r2 (hperm.mem_iff.mpr h.1) h.2
  | some r1 =>
    cases h2 : foldBest author a l2 (dictGet [] a) with
    | none =>
      exfalso
      have hn2 := (foldBest_eq_none author a l2 _).mp h2
      have hmin1 := foldBest_min author a l1 _ r1 h1
      rcases hmin1.1 with h | h
      · exact Option.noConfusion h
      · exact hn2.2 r1 (hperm.mem_iff.mp h.1) h.2
    | some r2 =>
      have hmin1 := foldBest_min author a l1 _ r1 h1
      have hmin2 := foldBest_min author a l2 _ r2 h2
      rcases hmin1.1 with h | hr1
      · exact Option.noConfusion h
      rcases hmin2.1 with h | hr2
      · exact Option.noConfusion h
      have hr2l1 : r2 ∈ l1 := hperm.mem_iff.mpr hr2.1
      have hle1 : pyIntD r1 ≤ pyIntD r2 := hmin1.2.2 r2 hr2l1 hr2.2
      have hle2 : pyIntD r2 ≤ pyIntD r1 := hmin2.2.2 r1 (hperm.mem_iff.mp hr1.1) hr1.2
      rw [hinj r1 hr1.1 r2 hr2l1 (le_antisymm hle1 hle2)]

/-- Witness for C5's amended statement at a concrete permutation pair. -/
theorem C5_perm_witness :
    ∃ m1 m2, get_blamed_names_loop (fun _ => "alice") ["50", "30"] [] = .ok ([], m1) ∧
      get_blamed_names_loop (fun _ => "alice") ["30", "50"] [] = .ok ([], m2) ∧
      ∀ a, dictGet m1 a = dictGet m2 a :=
  C5_perm_of_distinct_values (fun _ => "alice") ["50", "30"] ["30", "50"]
    (by decide) (by decide) (by decide)

/-- C7 counterexample: `get_blamed_names` does not leave its input
blamed-revision set unchanged — the `while` loop pops the set empty, so the
final state of the input set is `[]`, not the original {"30"}. -/
theorem C7_mutation_cex :
    get_blamed_names_loop (fun _ => "alice") ["30"] [] = .ok ([], [("alice", "30")]) ∧
    ([] : List String) ≠ ["30"] :=
  ⟨rfl, by decide⟩

/-- C7 amended: the reduction consumes (empties) its input blamed-revision
set; the author map itself is updated monotonically: each loop step either
leaves an author's entry unchanged or sets the popped revision's author's
entry to that revision, and it only replaces an existing entry when the new
revision's numeric value is strictly smaller — never larger. -/
theorem C7_state_and_monotonic :
    (∀ (author : String → String) (l : List String) (m : List (String × String))
        (res : List String × List (String × String)),
        get_blamed_names_loop author l m = .ok res → res.1 = []) ∧
    (∀ (author : String → String) (m : List (String × String)) (rev : String)
        (m2 : List (String × String)), blamed_names_step author m rev = .ok m2 →
        ∀ a, dictGet m2 a = dictGet m a ∨
          (a = author rev ∧ dictGet m2 a = some rev ∧
            (dictGet m a = none ∨
              ∃ c, dictGet m a = some c ∧ pyIntD rev < pyIntD c))) := by
  constructor
  · intro author l
    induction l with
    | nil =>
      intro m res h
      rw [get_blamed_names_loop] at h
      injection h with h2
      rw [← h2]
    | cons rev rest ih =>
      intro m res h
      rw [get_blamed_names_loop] at h
      cases hstep : blamed_names_step author m rev with
      | error e =>
        rw [hstep] at h
        simp at h
      | ok mm =>
        rw [hstep] at h
        exact ih mm res h
  · intro author m rev m2 h a
    simp only [blamed_names_step] at h
    cases hcur : dictGet m (author rev) with
    | none =>
      simp only [hcur] at h
      replace h : Except.ok (dictSet m (author rev) rev) = Except.ok m2 := h
      injection h with h2
      subst h2
      by_cases ha : author rev = a
      · right
        refine ⟨ha.symm, ?_, Or.inl (ha ▸ hcur)⟩
        rw [dictGet_dictSet, if_pos ha]
      · left
        rw [dictGet_dictSet, if_neg ha]
    | some cur =>
      simp only [hcur] at h
      cases hrn : pyInt rev with
      | none => simp [hrn] at h
      | some rn =>
        simp only [hrn] at h
        cases hcn : pyInt cur with
        | none => simp [hcn] at h
        | some cn =>
          simp only [hcn] at h
          split at h
          · rename_i hlt
            replace h : Except.ok (dictSet m (author rev) rev) = Except.ok m2 := h
            injection h with h2
            subst h2
            by_cases ha : author rev = a
            · right
              refine ⟨ha.symm, ?_, Or.inr ⟨cur, ha ▸ hcur, ?_⟩⟩
              · rw [dictGet_dictSet, if_pos ha]
              · simpa [pyIntD, hrn, hcn] using hlt
            · left
              rw [dictGet_dictSet, if_neg ha]
          · replace h : Except.ok m = Except.ok m2 := h
            injection h with h2
            subst h2
            exact Or.inl rfl

/-- Witness for C7's amended statement: the loop state ends with an empty
revision list, and a concrete replacing step (entry "50" replaced by "30")
satisfies the monotonic-update disjunction. -/
theorem C7_state_and_monotonic_witness :
    (([], [("alice", "30")]) : List String × List (String × String)).1 = [] ∧
    (dictGet [("alice", "30")] "alice" = dictGet [("alice", "50")] "alice" ∨
      ("alice" = "alice" ∧ dictGet [("alice", "30")] "alice" = some "30" ∧
        (dictGet [("alice", "50")] "alice" = none ∨
          ∃ c, dictGet [("alice", "50")] "alice" = some c ∧ pyIntD "30" < pyIntD c))) :=
  ⟨C7_state_and_monotonic.1 (fun _ => "alice") ["30"] [] ([], [("alice", "30")]) rfl,
    C7_state_and_monotonic.2 (fun _ => "alice") [("alice", "50")] "30" [("alice", "30")]
      rfl "alice"⟩

/-- A found occurrence index marks a prefix of the corresponding tail. -/
theorem occIdx_some (t : List Char) : ∀ (s : List Char) (i : Nat),
    occIdx t s = some i → t <+: s.drop i := by
  intro s
  induction s with
  | nil =>
    intro i h
    rw [occIdx] at h
    split at h
    · rename_i hp
      injection h with h2
      subst h2
      exact List.isPrefixOf_iff_prefix.mp hp
    · cases h
  | cons c s ih =>
    intro i h
    rw [occIdx] at h
    split at h
    · rename_i hp
      injection h with h2
      subst h2
      exact List.isPrefixOf_iff_prefix.mp hp
    · rw [Option.map_eq_some'] at h
      obtain ⟨j, hj, hji⟩ := h
      subst hji
      exact ih j hj

/-- The rust filter `filename.find(".rs",-3) != -1` holds exactly for
filenames ending in the 3-character suffix `.rs`. -/
theorem is_rust_file_iff (fd : FileDiff) :
    fd.is_rust_file = true ↔ List.IsSuffix ".rs".data fd.filename.data := by
  have hidx : pyIdx fd.filename.data.length (-3) = fd.filename.data.length - 3 := by
    rw [pyIdx, if_pos (by norm_num)]
    omega
  rw [FileDiff.is_rust_file, bne_iff_ne]
  constructor
  · intro h
    simp only [pyFind] at h
    rw [hidx] at h
    cases hocc : occIdx (String.data ".rs")
        (fd.filename.data.drop (fd.filename.data.length - 3)) with
    | none =>
      rw [hocc] at h
      exact absurd rfl h
    | some i =>
      have hpre := occIdx_some _ _ i hocc
      have hlen := hpre.length_le
      rw [List.length_drop, List.length_drop] at hlen
      have ht3 : (String.data ".rs").length = 3 := by decide
      rw [ht3] at hlen
      have hi : i = 0 := by omega
      subst hi
      rw [List.drop_zero] at hpre
      have teq : String.data ".rs" = fd.filename.data.drop (fd.filename.data.length - 3) :=
        hpre.eq_of_length (by rw [ht3, List.length_drop]; omega)
      rw [teq]
      exact List.drop_suffix _ _
  · intro h
    obtain ⟨u, hu⟩ := h
    simp only [pyFind]
    rw [hidx]
    have ht3 : (String.data ".rs").length = 3 := by decide
    have hlen : fd.filename.data.length = u.length + 3 := by
      rw [← hu, List.length_append, ht3]
    have hul : u.length + 3 - 3 = u.length := by omega
    have hdrop : fd.filename.data.drop (fd.filename.data.length - 3) = String.data ".rs" := by
      rw [hlen, hul]
      rw [← hu]
      exact List.drop_left u (String.data ".rs")
    rw [hdrop]
    have hocc : occIdx (String.data ".rs") (String.data ".rs") = some 0 := by decide
    rw [hocc]
    intro hc
    replace hc : ((fd.filename.data.length - 3 + 0 : Nat) : Int) = -1 := hc
    omega

/-- C8: for a RevisionDiff holding FileDiffs `foo.rs` and `foo.py`, each with
one DiffRange, a rust-only run returns only `foo.rs`'s blamed revisions (for
every collaborator whose blame for the two files is as hypothesised —
`foo.py`'s blame never contributes), an unfiltered run returns both files'
blamed revisions, and the filter selects exactly filenames ending in the
3-character suffix `.rs`. -/
theorem C8_rust_filter (api : HgPApi)
    (hrs : pySplitlines (api.blame "foo.rs" (api.parent "7")) = ["10:x"])
    (hpy : pySplitlines (api.blame "foo.py" (api.parent "7")) = ["20:y"]) :
    RevisionDiff.get_blamed_revs api
        ⟨"7", [⟨"7", "foo.rs", [⟨0, 1⟩]⟩, ⟨"7", "foo.py", [⟨0, 1⟩]⟩]⟩ [] true = .ok {"10"} ∧
    RevisionDiff.get_blamed_revs api
        ⟨"7", [⟨"7", "foo.rs", [⟨0, 1⟩]⟩, ⟨"7", "foo.py", [⟨0, 1⟩]⟩]⟩ [] false =
      .ok {"10", "20"} ∧
    (∀ fd : FileDiff, fd.is_rust_file = true ↔ List.IsSuffix ".rs".data fd.filename.data) := by
  have h1 : FileDiff.get_blamed_revs api ⟨"7", "foo.rs", [⟨0, 1⟩]⟩ [] = .ok {"10"} := by
    show get_blamed_revs_core (pySplitlines (api.blame "foo.rs" (api.parent "7"))) [] [⟨0, 1⟩] =
      .ok {"10"}
    rw [hrs]
    rfl
  have h2 : FileDiff.get_blamed_revs api ⟨"7", "foo.py", [⟨0, 1⟩]⟩ [] = .ok {"20"} := by
    show get_blamed_revs_core (pySplitlines (api.blame "foo.py" (api.parent "7"))) [] [⟨0, 1⟩] =
      .ok {"20"}
    rw [hpy]
    rfl
  refine ⟨?_, ?_, is_rust_file_iff⟩
  · show rd_blamed_loop api [] true [⟨"7", "foo.rs", [⟨0, 1⟩]⟩, ⟨"7", "foo.py", [⟨0, 1⟩]⟩] ∅ =
      .ok {"10"}
    rw [rd_blamed_loop, if_neg (by decide), h1]
    show rd_blamed_loop api [] true [⟨"7", "foo.py", [⟨0, 1⟩]⟩] (∅ ∪ {"10"}) = .ok {"10"}
    rw [rd_blamed_loop, if_pos (by decide), rd_blamed_loop, Finset.empty_union]
  · show rd_blamed_loop api [] false [⟨"7", "foo.rs", [⟨0, 1⟩]⟩, ⟨"7", "foo.py", [⟨0, 1⟩]⟩] ∅ =
      .ok {"10", "20"}
    rw [rd_blamed_loop, if_neg (by decide), h1]
    show rd_blamed_loop api [] false [⟨"7", "foo.py", [⟨0, 1⟩]⟩] (∅ ∪ {"10"}) = .ok {"10", "20"}
    rw [rd_blamed_loop, if_neg (by decide), h2]
    show rd_blamed_loop api [] false [] ((∅ ∪ {"10"}) ∪ {"20"}) = .ok {"10", "20"}
    rw [rd_blamed_loop, Finset.empty_union]
    have hun : ({"10"} ∪ {"20"} : Finset String) = {"10", "20"} := by decide
    rw [hun]

/-- A collaborator that blames `foo.rs` lines on revision 10 and every other
file's lines on revision 20. -/
def apiC : HgPApi :=
  { apiA with blame := fun f _ => if f = "foo.rs" then "10:x" else "20:y" }

/-- Witness for C8 at the concrete collaborator `apiC`. -/
theorem C8_rust_filter_witness :
    RevisionDiff.get_blamed_revs apiC
        ⟨"7", [⟨"7", "foo.rs", [⟨0, 1⟩]⟩, ⟨"7", "foo.py", [⟨0, 1⟩]⟩]⟩ [] true = .ok {"10"} ∧
    RevisionDiff.get_blamed_revs apiC
        ⟨"7", [⟨"7", "foo.rs", [⟨0, 1⟩]⟩, ⟨"7", "foo.py", [⟨0, 1⟩]⟩]⟩ [] false =
      .ok {"10", "20"} ∧
    (∀ fd : FileDiff, fd.is_rust_file = true ↔ List.IsSuffix ".rs".data fd.filename.data) :=
  C8_rust_filter apiC (by rfl) (by rfl)

/-- C9: when the keyword search returns no revisions, `main` produces no
output lines, and the outcome is unchanged when every other collaborator
query (diff, parent, blame, author, commit count) is replaced arbitrarily —
none of them is consulted. -/
theorem C9_empty_keyword (api : HgPApi) (keyword : String) (rust_only : Bool)
    (h : api.revs_from_keyword keyword = []) :
    BugzillaHg.main api keyword rust_only = .ok [] ∧
    ∀ d p b a c, BugzillaHg.main ⟨api.revs_from_keyword, d, p, b, a, c⟩ keyword rust_only =
      .ok [] := by
  constructor
  · rw [BugzillaHg.main, h]
    rfl
  · intro d p b a c
    rw [BugzillaHg.main]
    show (if (api.revs_from_keyword keyword).isEmpty then Except.ok [] else _) = Except.ok []
    rw [h]
    rfl

/-- Witness for C9: the collaborator `apiA` finds no revisions, and `main`
prints nothing. -/
theorem C9_empty_keyword_witness :
    BugzillaHg.main apiA "bug123" false = .ok [] ∧
    ∀ d p b a c, BugzillaHg.main ⟨apiA.revs_from_keyword, d, p, b, a, c⟩ "bug123" false =
      .ok [] :=
  C9_empty_keyword apiA "bug123" false rfl
